import Mathlib

/-
Verification development for the evo-data-converters downhole-collection core.

The embedding follows
src/packages/common/src/evo/data_converters/common/objects/downhole_collection/downhole_collection.py
(class DownholeCollection: get_measurement_tables, _compute_hole_bounding_box,
_combine_bounding_boxes, get_bounding_box) and
src/packages/common/src/evo/data_converters/common/objects/attributes.py
(AttributeFactory.create, PyArrowTableFactory.create_continuous_table).

Floating point numbers are modelled as real numbers; pandas Series cells that
may be NaN/missing are modelled as Option values; numpy vectorized cumulative
sums are modelled as structural recursion over lists.
-/

namespace EvoDataConverters

/-- One aligned survey sample row of the DataFrame built in
`_compute_hole_bounding_box` from the depth / dip / azimuth series
(`pd.DataFrame({"depth": depths, "dip": dips, "azimuth": azimuths})`).
A missing cell (NaN) is `none`. -/
structure SurveyRow where
  depth : Option ℝ
  dip : Option ℝ
  azimuth : Option ℝ

/-- A survey row that survived `dropna(subset=["depth", "dip", "azimuth"])`:
all three values are present. -/
structure Station where
  depth : ℝ
  dip : ℝ
  azimuth : ℝ

/-- Row-wise `dropna(subset=["depth", "dip", "azimuth"])`: keep exactly the
rows whose three cells are all present, in original row order. -/
def dropIncomplete (rows : List SurveyRow) : List Station :=
  rows.filterMap fun r =>
    match r.depth, r.dip, r.azimuth with
    | some d, some p, some a => some ⟨d, p, a⟩
    | _, _, _ => none

/-- Insert a station into a list kept sorted by ascending depth. -/
noncomputable def insertByDepth (s : Station) : List Station → List Station
  | [] => [s]
  | x :: xs => if s.depth ≤ x.depth then s :: x :: xs else x :: insertByDepth s xs

/-- Sort stations by ascending depth (`df.sort_values("depth")`), as a stable
insertion sort. -/
noncomputable def sortByDepth : List Station → List Station
  | [] => []
  | x :: xs => insertByDepth x (sortByDepth xs)

/-- Degrees to radians (`np.deg2rad`). -/
noncomputable def deg2rad (d : ℝ) : ℝ := d * (Real.pi / 180)

/-- Straight-segment trajectory integration, the loop form of the vectorized
numpy code in `_compute_hole_bounding_box`:
  step    = depth - previous depth          (np.diff with prepend=0.0)
  horiz   = step * sin(dip)                  dz_down = step * cos(dip)
  dN      = horiz * cos(az)                  dE      = horiz * sin(az)
  dX = dE, dY = dN, dZ = -dz_down, positions = collar + cumsum.
Returns the list of station positions (the collar itself is prepended by
the caller, mirroring `np.concatenate([[collar_x], x])`). -/
noncomputable def integrate (x y z prev : ℝ) : List Station → List (ℝ × ℝ × ℝ)
  | [] => []
  | s :: rest =>
    let step := s.depth - prev
    let x2 := x + step * Real.sin (deg2rad s.dip) * Real.sin (deg2rad s.azimuth)
    let y2 := y + step * Real.sin (deg2rad s.dip) * Real.cos (deg2rad s.azimuth)
    let z2 := z - step * Real.cos (deg2rad s.dip)
    (x2, y2, z2) :: integrate x2 y2 z2 s.depth rest

/-- Minimum of a list of reals (`.min()` of a numpy array; the numpy call on
an empty array would raise, and every use below is on a nonempty list, so the
`[]` branch is unreachable). -/
noncomputable def listMin : List ℝ → ℝ
  | [] => 0
  | h :: t => t.foldl min h

/-- Maximum of a list of reals (`.max()` of a numpy array; `[]` unreachable). -/
noncomputable def listMax : List ℝ → ℝ
  | [] => 0
  | h :: t => t.foldl max h

/-- The per-hole bounding-box dict returned by `_compute_hole_bounding_box`. -/
structure BBox where
  xmin : ℝ
  xmax : ℝ
  ymin : ℝ
  ymax : ℝ
  zmin : ℝ
  zmax : ℝ

/-- The trajectory points of a hole: the collar followed by the integrated
station positions (`np.concatenate([[collar_x], x])` etc.), after dropping
incomplete rows and sorting by depth. -/
noncomputable def holePoints (cx cy cz : ℝ) (rows : List SurveyRow) : List (ℝ × ℝ × ℝ) :=
  (cx, cy, cz) :: integrate cx cy cz 0 (sortByDepth (dropIncomplete rows))

/-- DownholeCollection._compute_hole_bounding_box. -/
noncomputable def computeHoleBoundingBox (cx cy cz : ℝ) (rows : List SurveyRow) : BBox :=
  let pts := holePoints cx cy cz rows
  let xs := pts.map (fun p => p.1)
  let ys := pts.map (fun p => p.2.1)
  let zs := pts.map (fun p => p.2.2)
  ⟨listMin xs, listMax xs, listMin ys, listMax ys, listMin zs, listMax zs⟩

/-- DownholeCollection._combine_bounding_boxes: raises ValueError (modelled as
`Except.error`) on an empty list, otherwise the elementwise min of minima and
max of maxima, as a list of 6 floats. -/
noncomputable def combineBoundingBoxes (bboxes : List BBox) : Except String (List ℝ) :=
  match bboxes with
  | [] => .error "bboxes list is empty"
  | _ :: _ =>
    .ok [listMin (bboxes.map BBox.xmin), listMax (bboxes.map BBox.xmax),
         listMin (bboxes.map BBox.ymin), listMax (bboxes.map BBox.ymax),
         listMin (bboxes.map BBox.zmin), listMax (bboxes.map BBox.zmax)]

/-- Modelled from the spec: the tables module (DistanceTable) is not under
src/. Per spec section 4.2 a DistanceTable row carries a hole index and a
single depth column plus the mapped dip and azimuth columns; missing entries
are passed through as missing. -/
structure DistanceRow where
  hole_index : ℕ
  depth : Option ℝ
  dip : Option ℝ
  azimuth : Option ℝ

/-- Modelled from the spec: an IntervalTable row carries a hole index and a
top / base column pair plus dip and azimuth. -/
structure IntervalRow where
  hole_index : ℕ
  top : Option ℝ
  base : Option ℝ
  dip : Option ℝ
  azimuth : Option ℝ

/-- Modelled from the spec: MeasurementTableAdapter with its two concrete
variants DistanceTable and IntervalTable (tables module not under src/). -/
inductive MeasurementTableAdapter where
  | distanceTable (rows : List DistanceRow)
  | intervalTable (rows : List IntervalRow)

/-- The Python classes a `get_measurement_tables` filter list can mention;
`isInstance` gives the isinstance semantics over the class hierarchy from the
spec (both concrete variants subclass MeasurementTableAdapter). -/
inductive AdapterClass where
  | adapterBase
  | distanceTableClass
  | intervalTableClass
deriving DecidableEq

/-- Modelled from the spec: Python isinstance for the adapter hierarchy. -/
def isInstance : MeasurementTableAdapter → AdapterClass → Bool
  | _, .adapterBase => true
  | .distanceTable _, .distanceTableClass => true
  | .intervalTable _, .intervalTableClass => true
  | _, _ => false

/-- Modelled from the spec: `get_depth_values(filter_to_hole_index)` returns
the position values for rows matching the given hole index, in original row
order; for IntervalTable the top value is the representative depth. Missing
entries are passed through as missing. -/
def getDepthValues : MeasurementTableAdapter → ℕ → List (Option ℝ)
  | .distanceTable rows, hi => (rows.filter (fun r => r.hole_index == hi)).map (fun r => r.depth)
  | .intervalTable rows, hi => (rows.filter (fun r => r.hole_index == hi)).map (fun r => r.top)

/-- Modelled from the spec: `get_dip_values`, same filtering contract. -/
def getDipValues : MeasurementTableAdapter → ℕ → List (Option ℝ)
  | .distanceTable rows, hi => (rows.filter (fun r => r.hole_index == hi)).map (fun r => r.dip)
  | .intervalTable rows, hi => (rows.filter (fun r => r.hole_index == hi)).map (fun r => r.dip)

/-- Modelled from the spec: `get_azimuth_values`, same filtering contract. -/
def getAzimuthValues : MeasurementTableAdapter → ℕ → List (Option ℝ)
  | .distanceTable rows, hi => (rows.filter (fun r => r.hole_index == hi)).map (fun r => r.azimuth)
  | .intervalTable rows, hi => (rows.filter (fun r => r.hole_index == hi)).map (fun r => r.azimuth)

/-- The aligned survey rows handed to `_compute_hole_bounding_box` for one
hole: the three per-hole series zipped positionally (they come from the same
filtered underlying frame, so their indices align). -/
def holeSurveyRows (mt : MeasurementTableAdapter) (hi : ℕ) : List SurveyRow :=
  List.zipWith3 SurveyRow.mk (getDepthValues mt hi) (getDipValues mt hi) (getAzimuthValues mt hi)

/-- Modelled from the spec: one row of the HoleCollars table (hole_collars
module not under src/): hole identifier, stable integer hole index, and
collar x / y / z. -/
structure CollarRow where
  hole_index : ℕ
  hole_id : String
  x : ℝ
  y : ℝ
  z : ℝ

/-- Modelled from the spec: HoleCollars, an indexed table with one row per
hole, exposed to the collection as its dataframe `df`. -/
structure HoleCollars where
  df : List CollarRow

/-- DownholeCollection: one HoleCollars plus an ordered measurement list. -/
structure DownholeCollection where
  name : String
  collars : HoleCollars
  measurements : List MeasurementTableAdapter

/-- DownholeCollection.get_measurement_tables: with no filter, a copy of the
measurement list; with a filter, the result of the append loop keeping the
adapters that are an instance of at least one listed class. -/
def getMeasurementTables (c : DownholeCollection)
    (filt : Option (List AdapterClass)) : List MeasurementTableAdapter :=
  match filt with
  | none => c.measurements
  | some fs =>
    c.measurements.foldl (fun results m =>
      if fs.any (fun cls => isInstance m cls) then results ++ [m] else results) []

/-- The bbox list built by the double loop in `get_bounding_box`: for every
DistanceTable adapter, for every collar row, the per-hole bounding box. -/
noncomputable def holeBBoxes (c : DownholeCollection) : List BBox :=
  (getMeasurementTables c (some [.distanceTableClass])).flatMap fun mt =>
    c.collars.df.map fun h =>
      computeHoleBoundingBox h.x h.y h.z (holeSurveyRows mt h.hole_index)

/-- DownholeCollection.get_bounding_box:
`return self._combine_bounding_boxes(bboxes=bboxes) if bboxes else []`. -/
noncomputable def getBoundingBox (c : DownholeCollection) : Except String (List ℝ) :=
  match holeBBoxes c with
  | [] => .ok []
  | bboxes@(_ :: _) => combineBoundingBoxes bboxes

/-- pandas dtype of a Series, as far as `AttributeFactory.create` inspects it
(`pd.api.types.is_float_dtype` distinguishes exactly the float case). -/
inductive Dtype where
  | float64
  | int64
  | boolDtype
  | objectDtype
deriving DecidableEq

/-- A named pandas Series: its dtype, its cell payload, and the optional
`attrs["nan_values"]` sentinel list attached to the column. -/
structure Series where
  dtype : Dtype
  data : List ℝ
  nanValues : Option (List ℝ)

/-- PyArrowTableFactory.create_continuous_table: a single-column float table
holding the series values under the name "data". -/
def createContinuousTable (s : Series) : List ℝ := s.data

/-- NanContinuous: the sentinel-value descriptor. -/
structure NanContinuous where
  values : List ℝ

/-- ContinuousAttribute: key, name, nan_description and the persisted table
handle (the FloatArray1 built from `client.save_table`'s table info), with the
handle type `H` abstract since ObjectDataClient is an external collaborator. -/
structure ContinuousAttribute (H : Type) where
  key : String
  name : String
  nanDescription : NanContinuous
  values : H

/-- AttributeFactory.create: the sentinel list is `attrs["nan_values"]` when
present, else empty; a float-dtype series is persisted via the client and
wrapped into a ContinuousAttribute; any other dtype yields None. -/
def AttributeFactory.create {H : Type} (name : String) (s : Series)
    (saveTable : List ℝ → H) : Option (ContinuousAttribute H) :=
  let nanValuesList : List ℝ :=
    match s.nanValues with
    | some l => l
    | none => []
  match s.dtype with
  | .float64 => some ⟨name, name, ⟨nanValuesList⟩, saveTable (createContinuousTable s)⟩
  | _ => none

/-- A numeric dtype in the sense of the spec's wording (pandas
`is_numeric_dtype`): float or integer. -/
def Dtype.isNumeric : Dtype → Bool
  | .float64 => true
  | .int64 => true
  | _ => false

/- Helper lemmas: characterization of listMin / listMax. -/

lemma foldl_min_le_init (l : List ℝ) (a : ℝ) : l.foldl min a ≤ a := by
  induction l generalizing a with
  | nil => exact le_refl a
  | cons h t ih => exact le_trans (ih (min a h)) (min_le_left a h)

lemma foldl_min_le_mem {l : List ℝ} {b : ℝ} (hb : b ∈ l) (a : ℝ) : l.foldl min a ≤ b := by
  induction l generalizing a with
  | nil => exact absurd hb (List.not_mem_nil b)
  | cons h t ih =>
    rcases List.mem_cons.mp hb with rfl | hbt
    · exact le_trans (foldl_min_le_init t (min a b)) (min_le_right a b)
    · exact ih hbt (min a h)

lemma foldl_min_mem (l : List ℝ) (a : ℝ) : l.foldl min a ∈ a :: l := by
  induction l generalizing a with
  | nil => exact List.mem_singleton.mpr rfl
  | cons h t ih =>
    have := ih (min a h)
    rcases List.mem_cons.mp this with heq | hmem
    · rcases min_choice a h with hc | hc
      · exact List.mem_cons.mpr (Or.inl (heq.trans hc))
      · exact List.mem_cons.mpr (Or.inr (List.mem_cons.mpr (Or.inl (heq.trans hc))))
    · exact List.mem_cons.mpr (Or.inr (List.mem_cons.mpr (Or.inr hmem)))

lemma foldl_max_init_le (l : List ℝ) (a : ℝ) : a ≤ l.foldl max a := by
  induction l generalizing a with
  | nil => exact le_refl a
  | cons h t ih => exact le_trans (le_max_left a h) (ih (max a h))

lemma foldl_max_mem_le {l : List ℝ} {b : ℝ} (hb : b ∈ l) (a : ℝ) : b ≤ l.foldl max a := by
  induction l generalizing a with
  | nil => exact absurd hb (List.not_mem_nil b)
  | cons h t ih =>
    rcases List.mem_cons.mp hb with rfl | hbt
    · exact le_trans (le_max_right a b) (foldl_max_init_le t (max a b))
    · exact ih hbt (max a h)

lemma foldl_max_mem (l : List ℝ) (a : ℝ) : l.foldl max a ∈ a :: l := by
  induction l generalizing a with
  | nil => exact List.mem_singleton.mpr rfl
  | cons h t ih =>
    have := ih (max a h)
    rcases List.mem_cons.mp this with heq | hmem
    · rcases max_choice a h with hc | hc
      · exact List.mem_cons.mpr (Or.inl (heq.trans hc))
      · exact List.mem_cons.mpr (Or.inr (List.mem_cons.mpr (Or.inl (heq.trans hc))))
    · exact List.mem_cons.mpr (Or.inr (List.mem_cons.mpr (Or.inr hmem)))

lemma listMin_le {l : List ℝ} {b : ℝ} (hb : b ∈ l) : listMin l ≤ b := by
  cases l with
  | nil => exact absurd hb (List.not_mem_nil b)
  | cons h t =>
    rcases List.mem_cons.mp hb with rfl | hbt
    · exact foldl_min_le_init t b
    · exact foldl_min_le_mem hbt h

lemma listMin_mem {l : List ℝ} (hl : l ≠ []) : listMin l ∈ l := by
  cases l with
  | nil => exact absurd rfl hl
  | cons h t => exact foldl_min_mem t h

lemma le_listMax {l : List ℝ} {b : ℝ} (hb : b ∈ l) : b ≤ listMax l := by
  cases l with
  | nil => exact absurd hb (List.not_mem_nil b)
  | cons h t =>
    rcases List.mem_cons.mp hb with rfl | hbt
    · exact foldl_max_init_le t b
    · exact foldl_max_mem_le hbt h

lemma listMax_mem {l : List ℝ} (hl : l ≠ []) : listMax l ∈ l := by
  cases l with
  | nil => exact absurd rfl hl
  | cons h t => exact foldl_max_mem t h

lemma listMin_eq_of {l : List ℝ} {a : ℝ} (ha : a ∈ l) (hle : ∀ b ∈ l, a ≤ b) :
    listMin l = a :=
  le_antisymm (listMin_le ha) (hle _ (listMin_mem (List.ne_nil_of_mem ha)))

lemma listMax_eq_of {l : List ℝ} {a : ℝ} (ha : a ∈ l) (hle : ∀ b ∈ l, b ≤ a) :
    listMax l = a :=
  le_antisymm (hle _ (listMax_mem (List.ne_nil_of_mem ha))) (le_listMax ha)

lemma listMin_perm {l l₂ : List ℝ} (hp : l.Perm l₂) (hl : l ≠ []) :
    listMin l = listMin l₂ := by
  have hl₂ : l₂ ≠ [] := fun h => hl (List.Perm.eq_nil (h ▸ hp))
  exact le_antisymm (listMin_le (hp.mem_iff.mpr (listMin_mem hl₂)))
    (listMin_le (hp.mem_iff.mp (listMin_mem hl)))

lemma listMax_perm {l l₂ : List ℝ} (hp : l.Perm l₂) (hl : l ≠ []) :
    listMax l = listMax l₂ := by
  have hl₂ : l₂ ≠ [] := fun h => hl (List.Perm.eq_nil (h ▸ hp))
  exact le_antisymm (le_listMax (hp.mem_iff.mp (listMax_mem hl)))
    (le_listMax (hp.mem_iff.mpr (listMax_mem hl₂)))

/- Helper lemmas: the depth sort. -/

/-- The depth order on stations used by the sort. -/
def depthLE (a b : Station) : Prop := a.depth ≤ b.depth

lemma insertByDepth_perm (s : Station) (l : List Station) :
    (insertByDepth s l).Perm (s :: l) := by
  induction l with
  | nil => exact List.Perm.refl _
  | cons x xs ih =>
    unfold insertByDepth
    by_cases h : s.depth ≤ x.depth
    · rw [if_pos h]
    · rw [if_neg h]
      exact (ih.cons x).trans (List.Perm.swap s x xs)

lemma insertByDepth_sorted {l : List Station} (hl : l.Sorted depthLE) (s : Station) :
    (insertByDepth s l).Sorted depthLE := by
  induction l with
  | nil => simp [insertByDepth, List.sorted_singleton]
  | cons x xs ih =>
    rw [List.sorted_cons] at hl
    unfold insertByDepth
    by_cases h : s.depth ≤ x.depth
    · rw [if_pos h]
      rw [List.sorted_cons]
      refine ⟨?_, List.sorted_cons.mpr hl⟩
      intro b hb
      rcases List.mem_cons.mp hb with rfl | hbx
      · exact h
      · exact le_trans h (hl.1 b hbx)
    · rw [if_neg h]
      rw [List.sorted_cons]
      refine ⟨?_, ih hl.2⟩
      intro b hb
      have hb2 := (insertByDepth_perm s xs).mem_iff.mp hb
      rcases List.mem_cons.mp hb2 with rfl | hbx
      · exact le_of_lt (lt_of_not_le h)
      · exact hl.1 b hbx

lemma sortByDepth_perm (l : List Station) : (sortByDepth l).Perm l := by
  induction l with
  | nil => exact List.Perm.refl _
  | cons x xs ih =>
    unfold sortByDepth
    exact (insertByDepth_perm x (sortByDepth xs)).trans (ih.cons x)

lemma sortByDepth_sorted (l : List Station) : (sortByDepth l).Sorted depthLE := by
  induction l with
  | nil => simp [sortByDepth]
  | cons x xs ih => exact insertByDepth_sorted ih x

/-- Two permuted station lists with pairwise-distinct depths have the same
depth sort. -/
lemma sortByDepth_eq_of_perm {l₁ l₂ : List Station} (hp : l₁.Perm l₂)
    (hnd : (l₁.map Station.depth).Nodup) : sortByDepth l₁ = sortByDepth l₂ := by
  have hps : (sortByDepth l₁).Perm (sortByDepth l₂) :=
    ((sortByDepth_perm l₁).trans hp).trans (sortByDepth_perm l₂).symm
  have hnd₁ : ((sortByDepth l₁).map Station.depth).Nodup := by
    refine List.Perm.nodup ?_ hnd
    exact ((sortByDepth_perm l₁).map Station.depth).symm
  have hnd₂ : ((sortByDepth l₂).map Station.depth).Nodup := by
    refine List.Perm.nodup ?_ hnd₁
    exact hps.map Station.depth
  have hlt : ∀ {l : List Station}, l.Sorted depthLE →
      (l.map Station.depth).Nodup → l.Sorted (fun a b => a.depth < b.depth) := by
    intro l hs hn
    rw [List.Nodup, List.pairwise_map] at hn
    exact (hs.and hn).imp (fun hab => lt_of_le_of_ne hab.1 hab.2)
  haveI : IsAntisymm Station (fun a b => a.depth < b.depth) :=
    ⟨fun a b hab hba => absurd (lt_trans hab hba) (lt_irrefl _)⟩
  exact List.eq_of_perm_of_sorted hps
    (hlt (sortByDepth_sorted l₁) hnd₁) (hlt (sortByDepth_sorted l₂) hnd₂)

/- Helper lemmas: trajectory integration for vertical holes. -/

lemma deg2rad_zero : deg2rad 0 = 0 := by simp [deg2rad]

/-- With every dip equal to 0 the integration only moves straight down: the
station at depth d sits at (x, y, z + prev - d). -/
lemma integrate_vertical (x y z prev : ℝ) (st : List Station)
    (h : ∀ s ∈ st, s.dip = 0) :
    integrate x y z prev st = st.map (fun s => (x, y, z + prev - s.depth)) := by
  induction st generalizing z prev with
  | nil => simp [integrate]
  | cons s rest ih =>
    have hdip : s.dip = 0 := h s (List.mem_cons_self s rest)
    unfold integrate
    rw [hdip, deg2rad_zero, Real.sin_zero, Real.cos_zero]
    simp only [mul_zero, zero_mul, add_zero, mul_one]
    rw [ih (z - (s.depth - prev)) s.depth (fun a ha => h a (List.mem_cons_of_mem s ha))]
    simp only [List.map_cons, List.cons.injEq, Prod.mk.injEq]
    refine ⟨⟨trivial, trivial, by ring⟩, ?_⟩
    refine List.map_congr_left ?_
    intro a _
    refine Prod.ext rfl (Prod.ext rfl ?_)
    simp only
    ring

lemma listMin_cons_of_forall_eq {c : ℝ} {l : List ℝ} (h : ∀ b ∈ l, b = c) :
    listMin (c :: l) = c := by
  refine listMin_eq_of (List.mem_cons_self c l) ?_
  intro b hb
  rcases List.mem_cons.mp hb with rfl | hbl
  · exact le_refl b
  · exact le_of_eq (h b hbl).symm

lemma listMax_cons_of_forall_eq {c : ℝ} {l : List ℝ} (h : ∀ b ∈ l, b = c) :
    listMax (c :: l) = c := by
  refine listMax_eq_of (List.mem_cons_self c l) ?_
  intro b hb
  rcases List.mem_cons.mp hb with rfl | hbl
  · exact le_refl b
  · exact le_of_eq (h b hbl)

/-- C2: a hole whose surviving survey rows are all vertical (dip = 0), with
collar (cx, cy, cz) and maximum surveyed depth D, gets the bounding box
[xmin = cx, xmax = cx, ymin = cy, ymax = cy, zmin = cz - D, zmax = cz]:
no horizontal drift, and Z spans from the collar down to collar minus the
deepest station. Depths are measured depths along the hole, nonnegative. -/
theorem c2_vertical_hole_bbox (cx cy cz D : ℝ) (rows : List SurveyRow)
    (hdip : ∀ s ∈ dropIncomplete rows, s.dip = 0)
    (hpos : ∀ s ∈ dropIncomplete rows, 0 ≤ s.depth)
    (hDmem : D ∈ (dropIncomplete rows).map Station.depth)
    (hDmax : ∀ d ∈ (dropIncomplete rows).map Station.depth, d ≤ D) :
    computeHoleBoundingBox cx cy cz rows = ⟨cx, cx, cy, cy, cz - D, cz⟩ := by
  have hmem : ∀ s : Station, s ∈ sortByDepth (dropIncomplete rows) ↔
      s ∈ dropIncomplete rows := fun s => (sortByDepth_perm _).mem_iff
  have hst := integrate_vertical cx cy cz 0 (sortByDepth (dropIncomplete rows))
    (fun s hs => hdip s ((hmem s).mp hs))
  have hD0 : 0 ≤ D := by
    rcases List.mem_map.mp hDmem with ⟨s, hs, rfl⟩
    exact hpos s hs
  unfold computeHoleBoundingBox holePoints
  rw [hst]
  simp only [List.map_cons, List.map_map, Function.comp]
  rw [BBox.mk.injEq]
  refine ⟨?_, ?_, ?_, ?_, ?_, ?_⟩
  · exact listMin_cons_of_forall_eq (by
      intro b hb
      rcases List.mem_map.mp hb with ⟨s, _, rfl⟩
      rfl)
  · exact listMax_cons_of_forall_eq (by
      intro b hb
      rcases List.mem_map.mp hb with ⟨s, _, rfl⟩
      rfl)
  · exact listMin_cons_of_forall_eq (by
      intro b hb
      rcases List.mem_map.mp hb with ⟨s, _, rfl⟩
      rfl)
  · exact listMax_cons_of_forall_eq (by
      intro b hb
      rcases List.mem_map.mp hb with ⟨s, _, rfl⟩
      rfl)
  · refine listMin_eq_of ?_ ?_
    · rcases List.mem_map.mp hDmem with ⟨s, hs, hsd⟩
      refine List.mem_cons.mpr (Or.inr (List.mem_map.mpr ⟨s, (hmem s).mpr hs, ?_⟩))
      show cz + 0 - s.depth = cz - D
      rw [hsd]
      ring
    · intro b hb
      rcases List.mem_cons.mp hb with rfl | hbl
      · linarith
      · rcases List.mem_map.mp hbl with ⟨s, hs, rfl⟩
        have := hDmax s.depth (List.mem_map.mpr ⟨s, (hmem s).mp hs, rfl⟩)
        show cz - D ≤ cz + 0 - s.depth
        linarith
  · refine listMax_eq_of (List.mem_cons_self _ _) ?_
    intro b hb
    rcases List.mem_cons.mp hb with rfl | hbl
    · exact le_refl b
    · rcases List.mem_map.mp hbl with ⟨s, hs, rfl⟩
      have := hpos s ((hmem s).mp hs)
      show cz + 0 - s.depth ≤ cz
      linarith

/-- Witness for C2: the spec scenario, collar (0, 0, 100), rows
(depth 5, dip 0, az 0) then (depth 15, dip 0, az 0), giving the box
X:[0,0], Y:[0,0], Z:[85,100]. -/
theorem c2_witness :
    computeHoleBoundingBox 0 0 100
      [⟨some 5, some 0, some 0⟩, ⟨some 15, some 0, some 0⟩] = ⟨0, 0, 0, 0, 85, 100⟩ := by
  have hdrop : dropIncomplete [⟨some 5, some 0, some 0⟩, ⟨some 15, some 0, some 0⟩] =
      [⟨5, 0, 0⟩, ⟨15, 0, 0⟩] := rfl
  have h := c2_vertical_hole_bbox 0 0 100 15
    [⟨some 5, some 0, some 0⟩, ⟨some 15, some 0, some 0⟩]
    (by
      rw [hdrop]
      intro s hs
      rcases List.mem_cons.mp hs with rfl | hs2
      · rfl
      · rcases List.mem_cons.mp hs2 with rfl | hs3
        · rfl
        · exact absurd hs3 (List.not_mem_nil s))
    (by
      rw [hdrop]
      intro s hs
      rcases List.mem_cons.mp hs with rfl | hs2
      · norm_num
      · rcases List.mem_cons.mp hs2 with rfl | hs3
        · norm_num
        · exact absurd hs3 (List.not_mem_nil s))
    (by rw [hdrop]; simp)
    (by
      rw [hdrop]
      intro d hd
      simp only [List.map_cons, List.map_nil] at hd
      rcases List.mem_cons.mp hd with rfl | hd2
      · norm_num
      · rcases List.mem_cons.mp hd2 with rfl | hd3
        · norm_num
        · exact absurd hd3 (List.not_mem_nil d))
  rw [show (100:ℝ) - 15 = 85 from by norm_num] at h
  exact h

lemma deg2rad_ninety : deg2rad 90 = Real.pi / 2 := by
  unfold deg2rad
  ring

/-- C4: a hole with exactly one surviving station at depth 10, dip 90
degrees (horizontal), azimuth 0 degrees (due North) has a trajectory whose Y
extent grows by exactly 10 over the collar Y while X and Z stay at the
collar: the box is [cx, cx, cy, cy + 10, cz, cz]. -/
theorem c4_horizontal_north_station (cx cy cz : ℝ) :
    computeHoleBoundingBox cx cy cz [⟨some 10, some 90, some 0⟩] =
      ⟨cx, cx, cy, cy + 10, cz, cz⟩ := by
  have hpts : integrate cx cy cz 0 [⟨10, 90, 0⟩] = [(cx, cy + 10, cz)] := by
    unfold integrate
    rw [deg2rad_ninety, deg2rad_zero]
    rw [Real.sin_pi_div_two, Real.cos_pi_div_two, Real.sin_zero, Real.cos_zero]
    norm_num
    rfl
  have hdrop : dropIncomplete [⟨some 10, some 90, some 0⟩] = [⟨10, 90, 0⟩] := rfl
  have hsort : sortByDepth [(⟨10, 90, 0⟩ : Station)] = [⟨10, 90, 0⟩] := rfl
  unfold computeHoleBoundingBox holePoints
  rw [hdrop, hsort, hpts]
  simp only [List.map_cons, List.map_nil]
  unfold listMin listMax
  simp only [List.foldl_cons, List.foldl_nil, min_self, max_self]
  rw [BBox.mk.injEq]
  refine ⟨rfl, rfl, ?_, ?_, rfl, rfl⟩
  · rw [min_eq_left]
    linarith
  · rw [max_eq_right]
    linarith

/-- Counterexample for C3: with two complete rows at the same depth 5, one
vertical (dip 0) and one horizontal (dip 90), the bounding box depends on
the original row order: the depth sort cannot separate equal depths, and the
first row listed consumes the whole 0-to-5 segment. -/
theorem c3_counterexample :
    computeHoleBoundingBox 0 0 0 [⟨some 5, some 0, some 0⟩, ⟨some 5, some 90, some 0⟩] ≠
      computeHoleBoundingBox 0 0 0 [⟨some 5, some 90, some 0⟩, ⟨some 5, some 0, some 0⟩] := by
  have hdrop1 : dropIncomplete [⟨some 5, some 0, some 0⟩, ⟨some 5, some 90, some 0⟩] =
      [⟨5, 0, 0⟩, ⟨5, 90, 0⟩] := rfl
  have hdrop2 : dropIncomplete [⟨some 5, some 90, some 0⟩, ⟨some 5, some 0, some 0⟩] =
      [⟨5, 90, 0⟩, ⟨5, 0, 0⟩] := rfl
  have hsort1 : sortByDepth [(⟨5, 0, 0⟩ : Station), ⟨5, 90, 0⟩] = [⟨5, 0, 0⟩, ⟨5, 90, 0⟩] := by
    simp only [sortByDepth, insertByDepth]
    rw [if_pos (le_refl (5:ℝ))]
  have hsort2 : sortByDepth [(⟨5, 90, 0⟩ : Station), ⟨5, 0, 0⟩] = [⟨5, 90, 0⟩, ⟨5, 0, 0⟩] := by
    simp only [sortByDepth, insertByDepth]
    rw [if_pos (le_refl (5:ℝ))]
  have hint1 : integrate 0 0 0 0 [(⟨5, 0, 0⟩ : Station), ⟨5, 90, 0⟩] =
      [(0, 0, -5), (0, 0, -5)] := by
    simp only [integrate, deg2rad_zero, deg2rad_ninety, Real.sin_zero, Real.cos_zero,
      Real.sin_pi_div_two, Real.cos_pi_div_two]
    norm_num
  have hint2 : integrate 0 0 0 0 [(⟨5, 90, 0⟩ : Station), ⟨5, 0, 0⟩] =
      [(0, 5, 0), (0, 5, 0)] := by
    simp only [integrate, deg2rad_zero, deg2rad_ninety, Real.sin_zero, Real.cos_zero,
      Real.sin_pi_div_two, Real.cos_pi_div_two]
    norm_num
  have hbox1 : computeHoleBoundingBox 0 0 0
      [⟨some 5, some 0, some 0⟩, ⟨some 5, some 90, some 0⟩] = ⟨0, 0, 0, 0, -5, 0⟩ := by
    unfold computeHoleBoundingBox holePoints
    rw [hdrop1, hsort1, hint1]
    rw [BBox.mk.injEq]
    norm_num [listMin, listMax, min_def, max_def]
  have hbox2 : computeHoleBoundingBox 0 0 0
      [⟨some 5, some 90, some 0⟩, ⟨some 5, some 0, some 0⟩] = ⟨0, 0, 0, 5, 0, 0⟩ := by
    unfold computeHoleBoundingBox holePoints
    rw [hdrop2, hsort2, hint2]
    rw [BBox.mk.injEq]
    norm_num [listMin, listMax, min_def, max_def]
  intro h
  rw [hbox1, hbox2, BBox.mk.injEq] at h
  norm_num at h

/-- C3 (amended): missing-value rows are excluded row-wise, complete rows are
retained (valid rows at other depths of the same hole are kept), and the
retained rows are sorted by depth ascending before segment integration; the
result is independent of the original row order provided the retained rows
have pairwise-distinct depths (with duplicate depths the order of the tied
rows can change the bounding box, see the counterexample). -/
theorem c3_amended (cx cy cz : ℝ) (rows rows₂ : List SurveyRow) (r : SurveyRow)
    (hr : r.depth = none ∨ r.dip = none ∨ r.azimuth = none)
    (hperm : rows.Perm rows₂)
    (hnd : ((dropIncomplete rows).map Station.depth).Nodup) :
    dropIncomplete (r :: rows) = dropIncomplete rows ∧
    (∀ d p a : ℝ, (⟨d, p, a⟩ : Station) ∈ dropIncomplete rows ↔
      (⟨some d, some p, some a⟩ : SurveyRow) ∈ rows) ∧
    (sortByDepth (dropIncomplete rows)).Sorted depthLE ∧
    computeHoleBoundingBox cx cy cz rows = computeHoleBoundingBox cx cy cz rows₂ := by
  refine ⟨?_, ?_, sortByDepth_sorted _, ?_⟩
  · obtain ⟨rd, rp, ra⟩ := r
    have hfr : (match rd, rp, ra with
        | some d, some p, some a => some (⟨d, p, a⟩ : Station)
        | _, _, _ => none) = none := by
      rcases hr with h | h | h
      · simp only at h
        subst h
        rfl
      · simp only at h
        subst h
        cases rd <;> rfl
      · simp only at h
        subst h
        cases rd <;> cases rp <;> rfl
    simp [dropIncomplete, List.filterMap_cons, hfr]
  · intro d p a
    constructor
    · intro h
      rcases List.mem_filterMap.mp h with ⟨r', hr', hfr'⟩
      obtain ⟨rd, rp, ra⟩ := r'
      cases rd <;> cases rp <;> cases ra <;> simp_all [Station.mk.injEq]
    · intro h
      exact List.mem_filterMap.mpr ⟨⟨some d, some p, some a⟩, h, rfl⟩
  · have hpd : (dropIncomplete rows).Perm (dropIncomplete rows₂) := hperm.filterMap _
    have hs := sortByDepth_eq_of_perm hpd hnd
    unfold computeHoleBoundingBox holePoints
    rw [hs]

/-- Witness for C3 (amended): a concrete hole where a row with a missing dip
is dropped while the complete row at another depth is kept, and two row
orders with distinct retained depths give the same box. -/
theorem c3_witness :
    computeHoleBoundingBox 0 0 0 [⟨some 5, some 1, some 2⟩, ⟨some 3, none, some 4⟩] =
      computeHoleBoundingBox 0 0 0 [⟨some 3, none, some 4⟩, ⟨some 5, some 1, some 2⟩] :=
  (c3_amended 0 0 0 [⟨some 5, some 1, some 2⟩, ⟨some 3, none, some 4⟩]
    [⟨some 3, none, some 4⟩, ⟨some 5, some 1, some 2⟩] ⟨none, some 0, some 0⟩
    (Or.inl rfl)
    (List.Perm.swap (⟨some 3, none, some 4⟩ : SurveyRow) (⟨some 5, some 1, some 2⟩ : SurveyRow) [])
    (by simp [dropIncomplete])).2.2.2

/-- A distance table whose single row has a missing dip, so the row-wise drop
leaves zero usable geometry rows. -/
def tableC1 : MeasurementTableAdapter := .distanceTable [⟨0, some 1, none, some 0⟩]

/-- A collection with one collar at the origin and only `tableC1`. -/
def collectionC1 : DownholeCollection := ⟨"c1", ⟨[⟨0, "H1", 0, 0, 0⟩]⟩, [tableC1]⟩

/-- Counterexample for C1: in `collectionC1` every geometry row of every hole
is incomplete (the single row has a missing dip), yet get_bounding_box does
not return the empty result: the hole contributes a degenerate collar-only
box and the collection returns it. -/
theorem c1_counterexample :
    dropIncomplete (holeSurveyRows tableC1 0) = [] ∧
    getBoundingBox collectionC1 = .ok [0, 0, 0, 0, 0, 0] :=
  ⟨rfl, rfl⟩

/-- C1 (amended): a hole whose filtered depth/dip/azimuth rows are all
incomplete contributes a degenerate collar-only bounding box (not nothing),
and get_bounding_box returns the empty result exactly when the double loop is
empty: no DistanceTable adapter or no collar rows. -/
theorem c1_amended (c : DownholeCollection) (cx cy cz : ℝ) (rows : List SurveyRow)
    (h : dropIncomplete rows = []) :
    computeHoleBoundingBox cx cy cz rows = ⟨cx, cx, cy, cy, cz, cz⟩ ∧
    (getBoundingBox c = .ok [] ↔
      getMeasurementTables c (some [.distanceTableClass]) = [] ∨ c.collars.df = []) := by
  constructor
  · unfold computeHoleBoundingBox holePoints
    rw [h]
    rfl
  · constructor
    · intro hok
      by_contra hcon
      push_neg at hcon
      obtain ⟨hdts, hcol⟩ := hcon
      cases hdts2 : getMeasurementTables c (some [.distanceTableClass]) with
      | nil => exact hdts hdts2
      | cons mt mts =>
        cases hcol2 : c.collars.df with
        | nil => exact hcol hcol2
        | cons h0 hs =>
          have hbb : holeBBoxes c =
              computeHoleBoundingBox h0.x h0.y h0.z (holeSurveyRows mt h0.hole_index) ::
                (hs.map (fun hh =>
                  computeHoleBoundingBox hh.x hh.y hh.z (holeSurveyRows mt hh.hole_index)) ++
                  mts.flatMap (fun mt2 => (h0 :: hs).map (fun hh =>
                    computeHoleBoundingBox hh.x hh.y hh.z (holeSurveyRows mt2 hh.hole_index)))) := by
            unfold holeBBoxes
            rw [hdts2, hcol2]
            rfl
          unfold getBoundingBox at hok
          rw [hbb] at hok
          simp only [combineBoundingBoxes] at hok
          exact absurd (Except.ok.inj hok) (List.cons_ne_nil _ _)
    · intro hor
      have hbbnil : holeBBoxes c = [] := by
        unfold holeBBoxes
        rcases hor with h1 | h1
        · rw [h1]
          rfl
        · refine List.flatMap_eq_nil_iff.mpr ?_
          intro mt _
          rw [h1]
          rfl
      unfold getBoundingBox
      rw [hbbnil]

/-- Witness for C1 (amended): a hole whose only row is fully missing gets the
degenerate collar-only box, and `collectionC1` has a distance table and a
collar, so its result is not empty. -/
theorem c1_witness :
    computeHoleBoundingBox 1 2 3 [⟨none, none, none⟩] = ⟨1, 1, 2, 2, 3, 3⟩ ∧
    (getBoundingBox collectionC1 = .ok [] ↔
      getMeasurementTables collectionC1 (some [.distanceTableClass]) = [] ∨
        collectionC1.collars.df = []) :=
  c1_amended collectionC1 1 2 3 [⟨none, none, none⟩] rfl

/-- A collection with a collar but an empty measurement list. -/
def collectionC5 : DownholeCollection := ⟨"c5", ⟨[⟨0, "H1", 1, 2, 3⟩]⟩, []⟩

/-- C5: on a collection whose measurement list is empty, get_bounding_box
returns the explicitly empty result and raises no error. -/
theorem c5_empty_measurements_bbox (c : DownholeCollection) (h : c.measurements = []) :
    getBoundingBox c = .ok [] := by
  have hdts : getMeasurementTables c (some [.distanceTableClass]) = [] := by
    unfold getMeasurementTables
    rw [h]
    rfl
  have hbb : holeBBoxes c = [] := by
    unfold holeBBoxes
    rw [hdts]
    rfl
  unfold getBoundingBox
  rw [hbb]

/-- Witness for C5: the concrete collection with zero measurement tables. -/
theorem c5_witness : getBoundingBox collectionC5 = .ok [] :=
  c5_empty_measurements_bbox collectionC5 rfl

/-- C6: combining bounding boxes is invariant under any permutation of the
(nonempty) list of valid boxes, and the combined box is the elementwise min
of minima and max of maxima across the boxes. -/
theorem c6_combine_perm_invariant (l1 l2 : List BBox) (hne : l1 ≠ [])
    (hperm : l1.Perm l2)
    (_hvalid : ∀ b ∈ l1, b.xmin ≤ b.xmax ∧ b.ymin ≤ b.ymax ∧ b.zmin ≤ b.zmax) :
    combineBoundingBoxes l1 = combineBoundingBoxes l2 ∧
    combineBoundingBoxes l1 =
      .ok [listMin (l1.map BBox.xmin), listMax (l1.map BBox.xmax),
           listMin (l1.map BBox.ymin), listMax (l1.map BBox.ymax),
           listMin (l1.map BBox.zmin), listMax (l1.map BBox.zmax)] := by
  have h2 : l2 ≠ [] := fun h => hne (List.Perm.eq_nil (h ▸ hperm))
  constructor
  · cases l1 with
    | nil => exact absurd rfl hne
    | cons b t =>
      cases l2 with
      | nil => exact absurd rfl h2
      | cons b2 t2 =>
        simp only [combineBoundingBoxes]
        rw [listMin_perm (hperm.map BBox.xmin) (by simp),
          listMax_perm (hperm.map BBox.xmax) (by simp),
          listMin_perm (hperm.map BBox.ymin) (by simp),
          listMax_perm (hperm.map BBox.ymax) (by simp),
          listMin_perm (hperm.map BBox.zmin) (by simp),
          listMax_perm (hperm.map BBox.zmax) (by simp)]
  · cases l1 with
    | nil => exact absurd rfl hne
    | cons b t => rfl

/-- Witness for C6: two concrete boxes combined in both orders. -/
theorem c6_witness :
    combineBoundingBoxes [⟨0, 1, 0, 1, 0, 1⟩, ⟨-1, 2, 0, 3, 1, 4⟩] =
      combineBoundingBoxes [⟨-1, 2, 0, 3, 1, 4⟩, ⟨0, 1, 0, 1, 0, 1⟩] :=
  (c6_combine_perm_invariant [⟨0, 1, 0, 1, 0, 1⟩, ⟨-1, 2, 0, 3, 1, 4⟩]
    [⟨-1, 2, 0, 3, 1, 4⟩, ⟨0, 1, 0, 1, 0, 1⟩] (List.cons_ne_nil _ _)
    (List.Perm.swap (⟨-1, 2, 0, 3, 1, 4⟩ : BBox) (⟨0, 1, 0, 1, 0, 1⟩ : BBox) [])
    (by
      intro b hb
      rcases List.mem_cons.mp hb with rfl | hb2
      · norm_num
      · rcases List.mem_cons.mp hb2 with rfl | hb3
        · norm_num
        · exact absurd hb3 (List.not_mem_nil b))).1

lemma foldl_append_filter {α : Type} (p : α → Bool) (l acc : List α) :
    l.foldl (fun results m => if p m then results ++ [m] else results) acc =
      acc ++ l.filter p := by
  induction l generalizing acc with
  | nil => simp
  | cons x t ih =>
    rw [List.foldl_cons, ih, List.filter_cons]
    by_cases h : p x
    · rw [if_pos h, if_pos h, List.append_assoc, List.singleton_append]
    · rw [if_neg h, if_neg h]

/-- C7: get_measurement_tables with no filter returns the full measurement
list; with a filter it returns exactly the subsequence of adapters that are
an instance of at least one listed class, in insertion order (the append
loop equals a filter), and filtering to DistanceTable excludes every
IntervalTable entry. Being a list-valued function, it never returns null. -/
theorem c7_get_measurement_tables_filter (c : DownholeCollection) (fs : List AdapterClass) :
    getMeasurementTables c none = c.measurements ∧
    getMeasurementTables c (some fs) =
      c.measurements.filter (fun m => fs.any (fun cls => isInstance m cls)) ∧
    (getMeasurementTables c (some fs)).Sublist c.measurements ∧
    (∀ rows, MeasurementTableAdapter.intervalTable rows ∉
      getMeasurementTables c (some [.distanceTableClass])) := by
  have hfilter : ∀ gs : List AdapterClass, getMeasurementTables c (some gs) =
      c.measurements.filter (fun m => gs.any (fun cls => isInstance m cls)) := by
    intro gs
    show c.measurements.foldl
      (fun results m => if gs.any (fun cls => isInstance m cls) then results ++ [m]
        else results) [] = _
    rw [foldl_append_filter, List.nil_append]
  refine ⟨rfl, hfilter fs, ?_, ?_⟩
  · rw [hfilter fs]
    exact List.filter_sublist _
  · intro rows hmem
    rw [hfilter [.distanceTableClass]] at hmem
    have := List.of_mem_filter hmem
    simp [isInstance] at this

/-- A collection with no collars and no measurements. -/
def emptyCollection : DownholeCollection := ⟨"empty", ⟨[]⟩, []⟩

/-- C9: _combine_bounding_boxes errors exactly on the empty box list; on any
nonempty list it returns a 6-float box; and the error is unreachable through
get_bounding_box, which never returns an error. -/
theorem c9_combine_error_iff_empty (c : DownholeCollection) (bs : List BBox)
    (hne : bs ≠ []) :
    (∃ l, combineBoundingBoxes bs = .ok l ∧ l.length = 6) ∧
    (∀ bs2 : List BBox, (∃ e, combineBoundingBoxes bs2 = .error e) ↔ bs2 = []) ∧
    (∀ e, getBoundingBox c ≠ .error e) := by
  refine ⟨?_, ?_, ?_⟩
  · cases bs with
    | nil => exact absurd rfl hne
    | cons b t => exact ⟨_, rfl, rfl⟩
  · intro bs2
    constructor
    · rintro ⟨e, he⟩
      cases bs2 with
      | nil => rfl
      | cons b t => exact absurd he (by simp [combineBoundingBoxes])
    · rintro rfl
      exact ⟨_, rfl⟩
  · intro e
    unfold getBoundingBox
    cases hbb : holeBBoxes c with
    | nil => simp
    | cons b t => simp [combineBoundingBoxes]

/-- Witness for C9: a concrete singleton box list does not raise, and a
concrete collection's get_bounding_box is not the ValueError. -/
theorem c9_witness :
    combineBoundingBoxes [⟨0, 1, 0, 1, 0, 1⟩] ≠ .error "bboxes list is empty" ∧
    getBoundingBox emptyCollection ≠ .error "bboxes list is empty" := by
  have h := c9_combine_error_iff_empty emptyCollection [⟨0, 1, 0, 1, 0, 1⟩]
    (List.cons_ne_nil _ _)
  refine ⟨?_, h.2.2 _⟩
  intro hc
  exact List.cons_ne_nil _ _ ((h.2.1 [⟨0, 1, 0, 1, 0, 1⟩]).mp ⟨_, hc⟩)

lemma computeHoleBoundingBox_spec (cx cy cz : ℝ) (rows : List SurveyRow) :
    (computeHoleBoundingBox cx cy cz rows).xmin ≤ cx ∧
    cx ≤ (computeHoleBoundingBox cx cy cz rows).xmax ∧
    (computeHoleBoundingBox cx cy cz rows).ymin ≤ cy ∧
    cy ≤ (computeHoleBoundingBox cx cy cz rows).ymax ∧
    (computeHoleBoundingBox cx cy cz rows).zmin ≤ cz ∧
    cz ≤ (computeHoleBoundingBox cx cy cz rows).zmax := by
  have hx : cx ∈ (holePoints cx cy cz rows).map (fun p => p.1) :=
    List.mem_map.mpr ⟨(cx, cy, cz), List.mem_cons_self _ _, rfl⟩
  have hy : cy ∈ (holePoints cx cy cz rows).map (fun p => p.2.1) :=
    List.mem_map.mpr ⟨(cx, cy, cz), List.mem_cons_self _ _, rfl⟩
  have hz : cz ∈ (holePoints cx cy cz rows).map (fun p => p.2.2) :=
    List.mem_map.mpr ⟨(cx, cy, cz), List.mem_cons_self _ _, rfl⟩
  exact ⟨listMin_le hx, le_listMax hx, listMin_le hy, le_listMax hy,
    listMin_le hz, le_listMax hz⟩

lemma computeHoleBoundingBox_wf (cx cy cz : ℝ) (rows : List SurveyRow) :
    (computeHoleBoundingBox cx cy cz rows).xmin ≤ (computeHoleBoundingBox cx cy cz rows).xmax ∧
    (computeHoleBoundingBox cx cy cz rows).ymin ≤ (computeHoleBoundingBox cx cy cz rows).ymax ∧
    (computeHoleBoundingBox cx cy cz rows).zmin ≤ (computeHoleBoundingBox cx cy cz rows).zmax := by
  obtain ⟨h1, h2, h3, h4, h5, h6⟩ := computeHoleBoundingBox_spec cx cy cz rows
  exact ⟨le_trans h1 h2, le_trans h3 h4, le_trans h5 h6⟩

lemma holeBBoxes_mem {c : DownholeCollection} {b : BBox} (hb : b ∈ holeBBoxes c) :
    ∃ mt hh, mt ∈ getMeasurementTables c (some [.distanceTableClass]) ∧
      hh ∈ c.collars.df ∧
      b = computeHoleBoundingBox hh.x hh.y hh.z (holeSurveyRows mt hh.hole_index) := by
  unfold holeBBoxes at hb
  rcases List.mem_flatMap.mp hb with ⟨mt, hmt, hb2⟩
  rcases List.mem_map.mp hb2 with ⟨hh, hhh, rfl⟩
  exact ⟨mt, hh, hmt, hhh, rfl⟩

/-- C10: every per-hole box contains the hole's collar point and has min at
most max on each axis; consequently a non-empty get_bounding_box result is a
well-formed 6-float box that contains the collar position of every hole in
HoleCollars. -/
theorem c10_bbox_contains_collars (cx cy cz : ℝ) (rows : List SurveyRow)
    (c : DownholeCollection) (l : List ℝ)
    (hok : getBoundingBox c = .ok l) (hne : l ≠ []) :
    ((computeHoleBoundingBox cx cy cz rows).xmin ≤ cx ∧
      cx ≤ (computeHoleBoundingBox cx cy cz rows).xmax ∧
      (computeHoleBoundingBox cx cy cz rows).ymin ≤ cy ∧
      cy ≤ (computeHoleBoundingBox cx cy cz rows).ymax ∧
      (computeHoleBoundingBox cx cy cz rows).zmin ≤ cz ∧
      cz ≤ (computeHoleBoundingBox cx cy cz rows).zmax ∧
      (computeHoleBoundingBox cx cy cz rows).xmin ≤ (computeHoleBoundingBox cx cy cz rows).xmax ∧
      (computeHoleBoundingBox cx cy cz rows).ymin ≤ (computeHoleBoundingBox cx cy cz rows).ymax ∧
      (computeHoleBoundingBox cx cy cz rows).zmin ≤ (computeHoleBoundingBox cx cy cz rows).zmax) ∧
    ∃ x0 x1 y0 y1 z0 z1, l = [x0, x1, y0, y1, z0, z1] ∧
      x0 ≤ x1 ∧ y0 ≤ y1 ∧ z0 ≤ z1 ∧
      ∀ hh ∈ c.collars.df, x0 ≤ hh.x ∧ hh.x ≤ x1 ∧ y0 ≤ hh.y ∧ hh.y ≤ y1 ∧
        z0 ≤ hh.z ∧ hh.z ≤ z1 := by
  constructor
  · obtain ⟨h1, h2, h3, h4, h5, h6⟩ := computeHoleBoundingBox_spec cx cy cz rows
    obtain ⟨w1, w2, w3⟩ := computeHoleBoundingBox_wf cx cy cz rows
    exact ⟨h1, h2, h3, h4, h5, h6, w1, w2, w3⟩
  · cases hbb : holeBBoxes c with
    | nil =>
      unfold getBoundingBox at hok
      rw [hbb] at hok
      exact absurd (Except.ok.inj hok).symm hne
    | cons b t =>
      unfold getBoundingBox at hok
      rw [hbb] at hok
      simp only [combineBoundingBoxes] at hok
      have hbmem : b ∈ holeBBoxes c := by
        rw [hbb]
        exact List.mem_cons_self _ _
      obtain ⟨mt0, hh0, hmt0, hhh0, hbeq⟩ := holeBBoxes_mem hbmem
      have hbwf : b.xmin ≤ b.xmax ∧ b.ymin ≤ b.ymax ∧ b.zmin ≤ b.zmax := by
        rw [hbeq]
        exact computeHoleBoundingBox_wf _ _ _ _
      refine ⟨listMin ((b :: t).map BBox.xmin), listMax ((b :: t).map BBox.xmax),
        listMin ((b :: t).map BBox.ymin), listMax ((b :: t).map BBox.ymax),
        listMin ((b :: t).map BBox.zmin), listMax ((b :: t).map BBox.zmax),
        (Except.ok.inj hok).symm, ?_, ?_, ?_, ?_⟩
      · exact le_trans (listMin_le (List.mem_map.mpr ⟨b, List.mem_cons_self _ _, rfl⟩))
          (le_trans hbwf.1 (le_listMax (List.mem_map.mpr ⟨b, List.mem_cons_self _ _, rfl⟩)))
      · exact le_trans (listMin_le (List.mem_map.mpr ⟨b, List.mem_cons_self _ _, rfl⟩))
          (le_trans hbwf.2.1 (le_listMax (List.mem_map.mpr ⟨b, List.mem_cons_self _ _, rfl⟩)))
      · exact le_trans (listMin_le (List.mem_map.mpr ⟨b, List.mem_cons_self _ _, rfl⟩))
          (le_trans hbwf.2.2 (le_listMax (List.mem_map.mpr ⟨b, List.mem_cons_self _ _, rfl⟩)))
      · intro hh hhmem
        have hbhmem : computeHoleBoundingBox hh.x hh.y hh.z
            (holeSurveyRows mt0 hh.hole_index) ∈ b :: t := by
          rw [← hbb]
          unfold holeBBoxes
          exact List.mem_flatMap.mpr ⟨mt0, hmt0, List.mem_map.mpr ⟨hh, hhmem, rfl⟩⟩
        obtain ⟨s1, s2, s3, s4, s5, s6⟩ :=
          computeHoleBoundingBox_spec hh.x hh.y hh.z (holeSurveyRows mt0 hh.hole_index)
        refine ⟨?_, ?_, ?_, ?_, ?_, ?_⟩
        · exact le_trans (listMin_le (List.mem_map.mpr ⟨_, hbhmem, rfl⟩)) s1
        · exact le_trans s2 (le_listMax (List.mem_map.mpr ⟨_, hbhmem, rfl⟩))
        · exact le_trans (listMin_le (List.mem_map.mpr ⟨_, hbhmem, rfl⟩)) s3
        · exact le_trans s4 (le_listMax (List.mem_map.mpr ⟨_, hbhmem, rfl⟩))
        · exact le_trans (listMin_le (List.mem_map.mpr ⟨_, hbhmem, rfl⟩)) s5
        · exact le_trans s6 (le_listMax (List.mem_map.mpr ⟨_, hbhmem, rfl⟩))

/-- A collection with one collar at the origin and one distance table with no
rows, whose overall bounding box is the degenerate box at the collar. -/
def collectionC10 : DownholeCollection :=
  ⟨"c10", ⟨[⟨0, "H1", 0, 0, 0⟩]⟩, [.distanceTable []]⟩

/-- Witness for C10 at a concrete per-hole box and a concrete collection. -/
theorem c10_witness :
    ((computeHoleBoundingBox 1 2 3 []).xmin ≤ 1 ∧
      1 ≤ (computeHoleBoundingBox 1 2 3 []).xmax ∧
      (computeHoleBoundingBox 1 2 3 []).ymin ≤ 2 ∧
      2 ≤ (computeHoleBoundingBox 1 2 3 []).ymax ∧
      (computeHoleBoundingBox 1 2 3 []).zmin ≤ 3 ∧
      3 ≤ (computeHoleBoundingBox 1 2 3 []).zmax ∧
      (computeHoleBoundingBox 1 2 3 []).xmin ≤ (computeHoleBoundingBox 1 2 3 []).xmax ∧
      (computeHoleBoundingBox 1 2 3 []).ymin ≤ (computeHoleBoundingBox 1 2 3 []).ymax ∧
      (computeHoleBoundingBox 1 2 3 []).zmin ≤ (computeHoleBoundingBox 1 2 3 []).zmax) ∧
    ∃ x0 x1 y0 y1 z0 z1, [(0:ℝ), 0, 0, 0, 0, 0] = [x0, x1, y0, y1, z0, z1] ∧
      x0 ≤ x1 ∧ y0 ≤ y1 ∧ z0 ≤ z1 ∧
      ∀ hh ∈ collectionC10.collars.df, x0 ≤ hh.x ∧ hh.x ≤ x1 ∧ y0 ≤ hh.y ∧ hh.y ≤ y1 ∧
        z0 ≤ hh.z ∧ hh.z ≤ z1 :=
  c10_bbox_contains_collars 1 2 3 [] collectionC10 [0, 0, 0, 0, 0, 0] rfl
    (List.cons_ne_nil _ _)

/-- Counterexample for C8: an integer column is numeric, but
`AttributeFactory.create` tests `is_float_dtype`, so it yields None instead
of a continuous attribute. -/
theorem c8_counterexample :
    Dtype.isNumeric .int64 = true ∧
    AttributeFactory.create "density" ⟨.int64, [1, 2], none⟩ (fun t => t.length) = none :=
  ⟨rfl, rfl⟩

/-- C8 (amended): for a float-dtype column, create returns a continuous
attribute keyed and named by the column name, whose values are the persisted
handle of the single-column table and whose nan descriptor lists exactly the
attached sentinel markers (empty when none are attached); every column of any
other dtype, integer numeric included, yields None without error. -/
theorem c8_amended {H : Type} (nm : String) (s : Series) (saveTable : List ℝ → H) :
    (s.dtype = .float64 →
      AttributeFactory.create nm s saveTable =
        some ⟨nm, nm, ⟨s.nanValues.getD []⟩, saveTable s.data⟩) ∧
    (s.dtype ≠ .float64 → AttributeFactory.create nm s saveTable = none) := by
  constructor
  · intro h
    unfold AttributeFactory.create
    rw [h]
    cases hnv : s.nanValues <;> simp [hnv, Option.getD, createContinuousTable]
  · intro h
    unfold AttributeFactory.create
    cases hd : s.dtype
    · exact absurd hd h
    · rfl
    · rfl
    · rfl

/-- Witness for C8 (amended): a float column with one sentinel gets the full
attribute; an object (string) column gets None. -/
theorem c8_witness :
    AttributeFactory.create "density" ⟨.float64, [1, 2], some [-9999]⟩ (fun t => t.length) =
      some ⟨"density", "density", ⟨[-9999]⟩, 2⟩ ∧
    AttributeFactory.create "label" ⟨.objectDtype, [], none⟩ (fun t => t.length) = none := by
  constructor
  · have h := (c8_amended "density" (⟨.float64, [1, 2], some [-9999]⟩ : Series)
      (fun t => t.length)).1 rfl
    rw [h]
    rfl
  · exact (c8_amended "label" (⟨.objectDtype, [], none⟩ : Series)
      (fun t => t.length)).2 (by decide)

end EvoDataConverters
